import Mathlib

/-!
Verification of the PlanGEN search-algorithm core against its specification.

This file gives a shallow embedding of the relevant parts of the repository:
the UCB bandit (`plangen/utils/ucb.py`), the BestOfN, REBASE, and
TreeOfThought algorithms (`plangen/algorithms/*.py`), including REBASE's
verifier-score parsing.  External collaborators (LLM interface, constraint
agent, verification agent, template loader) are modelled as oracle functions
supplied through environment records, which is the standard idealization for
code whose only effects are calls to those collaborators.  Python floats are
modelled as rationals (or reals where `math.sqrt`/`math.log` appear).
-/

namespace PlanGen

/-! ## Python `max(iterable, key=f)` semantics

`max` keeps the current best and replaces it only when the new key is
strictly greater, so it returns the FIRST item attaining the maximum key.
`pyMaxBy` returns `none` on an empty list, where Python raises `ValueError`.
-/

def pyMaxStep {α β : Type} [LinearOrder β] (f : α → β) (best cur : α) : α :=
  if f best < f cur then cur else best

def pyMaxBy {α β : Type} [LinearOrder β] (f : α → β) : List α → Option α
  | [] => none
  | x :: xs => some (xs.foldl (pyMaxStep f) x)

/-- Invariant of the replace-on-strict-increase fold: the result is either the
initial accumulator (dominating everything), or the first element of the list
that strictly exceeds the accumulator and every element before it, and is not
strictly exceeded by anything after it. -/
theorem pyMaxFold_spec {α β : Type} [LinearOrder β] (f : α → β) :
    ∀ (xs : List α) (acc : α),
      (xs.foldl (pyMaxStep f) acc = acc ∧ ∀ y ∈ xs, f y ≤ f acc) ∨
      (∃ l₁ m l₂, xs = l₁ ++ m :: l₂ ∧ xs.foldl (pyMaxStep f) acc = m ∧
        f acc < f m ∧ (∀ y ∈ l₁, f y < f m) ∧ (∀ y ∈ l₂, f y ≤ f m)) := by
  intro xs
  induction xs with
  | nil => intro acc; left; simp
  | cons z rest ih =>
    intro acc
    by_cases hz : f acc < f z
    · right
      have hstep : (z :: rest).foldl (pyMaxStep f) acc = rest.foldl (pyMaxStep f) z := by
        simp [List.foldl_cons, pyMaxStep, hz]
      rcases ih z with ⟨heq, hall⟩ | ⟨l₁, m, l₂, hsplit, heq, hlt, hbefore, hafter⟩
      · exact ⟨[], z, rest, by simp, by rw [hstep, heq], hz, by simp, hall⟩
      · refine ⟨z :: l₁, m, l₂, by simp [hsplit], by rw [hstep, heq], lt_trans hz hlt, ?_, hafter⟩
        intro y hy
        rcases List.mem_cons.mp hy with h | h
        · exact h ▸ hlt
        · exact hbefore y h
    · have hstep : (z :: rest).foldl (pyMaxStep f) acc = rest.foldl (pyMaxStep f) acc := by
        simp [List.foldl_cons, pyMaxStep, hz]
      have hzle : f z ≤ f acc := le_of_not_lt hz
      rcases ih acc with ⟨heq, hall⟩ | ⟨l₁, m, l₂, hsplit, heq, hlt, hbefore, hafter⟩
      · left
        refine ⟨by rw [hstep, heq], ?_⟩
        intro y hy
        rcases List.mem_cons.mp hy with h | h
        · exact h ▸ hzle
        · exact hall y h
      · right
        refine ⟨z :: l₁, m, l₂, by simp [hsplit], by rw [hstep, heq], hlt, ?_, hafter⟩
        intro y hy
        rcases List.mem_cons.mp hy with h | h
        · exact h ▸ lt_of_le_of_lt hzle hlt
        · exact hbefore y h

/-- `pyMaxBy` on a nonempty list returns the first element attaining the
maximum key: there is a split of the list at the returned element such that
everything before it has a strictly smaller key and everything in the list
has a key at most the returned one. -/
theorem pyMaxBy_spec {α β : Type} [LinearOrder β] (f : α → β) (x : α) (xs : List α) :
    ∃ l₁ m l₂, x :: xs = l₁ ++ m :: l₂ ∧ pyMaxBy f (x :: xs) = some m ∧
      (∀ y ∈ l₁, f y < f m) ∧ (∀ y ∈ x :: xs, f y ≤ f m) := by
  rcases pyMaxFold_spec f xs x with ⟨heq, hall⟩ | ⟨l₁, m, l₂, hsplit, heq, hlt, hbefore, hafter⟩
  · refine ⟨[], x, xs, by simp, ?_, by simp, ?_⟩
    · simp [pyMaxBy, heq]
    · intro y hy
      rcases List.mem_cons.mp hy with h | h
      · exact h ▸ le_refl _
      · exact hall y h
  · refine ⟨x :: l₁, m, l₂, by simp [hsplit], ?_, ?_, ?_⟩
    · simp [pyMaxBy, heq]
    · intro y hy
      rcases List.mem_cons.mp hy with h | h
      · exact h ▸ hlt
      · exact hbefore y h
    · intro y hy
      rcases List.mem_cons.mp hy with h | h
      · exact h ▸ le_of_lt hlt
      · rw [hsplit] at h
        rcases List.mem_append.mp h with h | h
        · exact le_of_lt (hbefore y h)
        · rcases List.mem_cons.mp h with h | h
          · exact h ▸ le_refl _
          · exact hafter y h

/-- `pyMaxBy` keyed through a map `x ↦ (x, g x)`: characterization directly on
the underlying list (used for Python's `max(dict.items(), key=λp. p[1])`). -/
theorem pyMaxBy_map_spec {α β : Type} [LinearOrder β] (g : α → β) (x : α) (xs : List α) :
    ∃ l₁ m l₂, x :: xs = l₁ ++ m :: l₂ ∧
      (pyMaxBy Prod.snd ((x :: xs).map (fun a => (a, g a)))).map Prod.fst = some m ∧
      (∀ y ∈ l₁, g y < g m) ∧ (∀ y ∈ x :: xs, g y ≤ g m) := by
  have hmap : (x :: xs).map (fun a => (a, g a)) =
      (x, g x) :: xs.map (fun a => (a, g a)) := by simp
  rcases pyMaxBy_spec (Prod.snd) (x, g x) (xs.map (fun a => (a, g a))) with
    ⟨L₁, M, L₂, hsplit, heq, hbefore, hall⟩
  -- recover the split on the underlying list from the split on the mapped list
  have hsplit' : (x :: xs).map (fun a => (a, g a)) = L₁ ++ M :: L₂ := by
    rw [hmap]; exact hsplit
  rcases List.map_eq_append_iff.mp hsplit' with ⟨u₁, u₂, hu, hmap₁, hmap₂⟩
  cases u₂ with
  | nil => simp at hmap₂
  | cons m rest =>
    have hm : M = (m, g m) ∧ L₂ = rest.map (fun a => (a, g a)) := by
      simpa using hmap₂.symm
    refine ⟨u₁, m, rest, hu, ?_, ?_, ?_⟩
    · rw [hmap, heq, hm.1]
      rfl
    · intro y hy
      have : (y, g y) ∈ L₁ := by
        rw [← hmap₁]; exact List.mem_map_of_mem _ hy
      have := hbefore _ this
      simpa [hm.1] using this
    · intro y hy
      have : (y, g y) ∈ (x :: xs).map (fun a => (a, g a)) := List.mem_map_of_mem _ hy
      rw [hmap] at this
      have := hall _ this
      simpa [hm.1] using this

/-! ## Python string primitives

The embedding works on `String.data : List Char` with structural-recursive
re-implementations of the Python string methods the code uses
(`strip`, `split(sep)`, `split()`, `startswith`, `lower`, `replace`, `join`),
because these must evaluate inside the kernel on concrete inputs.
Whitespace is the ASCII whitespace recognised by `Char.isWhitespace`, and
`lower` is ASCII case-folding, an adequate idealization of Python's unicode
behaviour for this spec. -/

def pyIsSpace (c : Char) : Bool := c.isWhitespace

/-- Python `s.strip()`: drop whitespace from both ends. -/
def stripChars (l : List Char) : List Char :=
  ((l.dropWhile pyIsSpace).reverse.dropWhile pyIsSpace).reverse

def pyStrip (s : String) : String := ⟨stripChars s.data⟩

/-- Left-to-right, non-overlapping split on a non-empty separator, as in
Python's `s.split(sep)` and Lean's `String.splitOn`.  The `skip` counter
consumes the remaining characters of a matched separator, keeping the
recursion structural. -/
def splitGo (sep : List Char) : List Char → ℕ → List Char → List (List Char)
  | [], _, acc => [acc.reverse]
  | _ :: rest, skip+1, acc => splitGo sep rest skip acc
  | c :: rest, 0, acc =>
    if sep.isPrefixOf (c :: rest) then
      acc.reverse :: splitGo sep rest (sep.length - 1) []
    else
      splitGo sep rest 0 (c :: acc)

def pySplit (s sep : String) : List String :=
  (splitGo sep.data s.data 0 []).map (fun l => ⟨l⟩)

/-- Python `s.startswith(pre)`. -/
def pyStartsWith (s pre : String) : Bool := pre.data.isPrefixOf s.data

/-- Python `s.lower()` (ASCII). -/
def pyLower (s : String) : String := ⟨s.data.map Char.toLower⟩

/-- Python `s.replace(pat, rep)` for non-empty `pat`: replace every
non-overlapping occurrence, left to right (equals split-then-join). -/
def pyReplace (s pat rep : String) : String :=
  ⟨List.intercalate rep.data (splitGo pat.data s.data 0 [])⟩

/-- Python `sep.join(parts)`. -/
def pyJoin (sep : String) (parts : List String) : String :=
  ⟨List.intercalate sep.data (parts.map String.data)⟩

/-- Python `s.split()` (no separator): whitespace runs delimit, empties dropped. -/
def wordsGo : List Char → List Char → List (List Char)
  | [], acc => if acc.isEmpty then [] else [acc.reverse]
  | c :: rest, acc =>
    if pyIsSpace c then
      if acc.isEmpty then wordsGo rest [] else acc.reverse :: wordsGo rest []
    else wordsGo rest (c :: acc)

def pyWords (s : String) : List String := (wordsGo s.data []).map (fun l => ⟨l⟩)

/-- Python `re.findall(r"\d+", s)`: the maximal runs of decimal digits, in
order of occurrence. -/
def digitRunsGo : List Char → List Char → List (List Char)
  | [], acc => if acc.isEmpty then [] else [acc.reverse]
  | c :: rest, acc =>
    if c.isDigit then digitRunsGo rest (c :: acc)
    else if acc.isEmpty then digitRunsGo rest []
    else acc.reverse :: digitRunsGo rest []

def digitRuns (s : String) : List String := (digitRunsGo s.data []).map (fun l => ⟨l⟩)

def natOfDigits (l : List Char) : ℕ := l.foldl (fun n c => 10 * n + (c.toNat - 48)) 0

/-- Python `float(s)` on the decimal subset `[+-]? digits [. digits]?` (also
`.5`, `5.`), returning `none` where `float` raises `ValueError`.  Exponent
notation, `inf`/`nan` and underscore separators are outside the model. -/
def parseFloatQ (s : String) : Option ℚ :=
  let t := stripChars s.data
  let su : Bool × List Char :=
    match t with
    | '-' :: u => (true, u)
    | '+' :: u => (false, u)
    | u => (false, u)
  let signed : ℚ → ℚ := fun q => if su.1 then -q else q
  match splitGo ['.'] su.2 0 [] with
  | [ip] =>
    if ip ≠ [] ∧ ip.all Char.isDigit then some (signed (natOfDigits ip : ℚ)) else none
  | [ip, fp] =>
    if (ip ≠ [] ∨ fp ≠ []) ∧ ip.all Char.isDigit ∧ fp.all Char.isDigit then
      some (signed ((natOfDigits ip : ℚ) + (natOfDigits fp : ℚ) / 10 ^ fp.length))
    else none
  | _ => none

theorem digitRunsGo_eq_nil_iff (l : List Char) (acc : List Char) :
    digitRunsGo l acc = [] ↔ (acc = [] ∧ ∀ c ∈ l, c.isDigit = false) := by
  induction l generalizing acc with
  | nil =>
    constructor
    · intro h
      by_cases ha : acc.isEmpty
      · exact ⟨List.isEmpty_iff.mp ha, by simp⟩
      · simp [digitRunsGo, ha] at h
    · rintro ⟨rfl, -⟩
      simp [digitRunsGo]
  | cons c rest ih =>
    by_cases hc : c.isDigit
    · constructor
      · intro h
        simp only [digitRunsGo, hc, if_true] at h
        have := (ih (c :: acc)).mp h
        simp at this
      · rintro ⟨rfl, hall⟩
        have := hall c (by simp)
        rw [hc] at this
        cases this
    · by_cases ha : acc.isEmpty
      · have hacc : acc = [] := List.isEmpty_iff.mp ha
        constructor
        · intro h
          simp only [digitRunsGo, hc, if_false, ha, if_true] at h
          have := (ih []).mp h
          refine ⟨hacc, ?_⟩
          intro d hd
          rcases List.mem_cons.mp hd with h' | h'
          · rw [h']; simpa using hc
          · exact this.2 d h'
        · rintro ⟨rfl, hall⟩
          simp only [digitRunsGo, hc, if_false, ha, if_true]
          exact (ih []).mpr ⟨rfl, fun d hd => hall d (List.mem_cons_of_mem _ hd)⟩
      · constructor
        · intro h
          simp [digitRunsGo, hc, ha] at h
        · rintro ⟨rfl, -⟩
          simp at ha

theorem digitRuns_eq_nil_iff (s : String) :
    digitRuns s = [] ↔ ∀ c ∈ s.data, c.isDigit = false := by
  unfold digitRuns
  rw [List.map_eq_nil_iff]
  rw [digitRunsGo_eq_nil_iff]
  simp

/-! ## REBASE verifier-score parsing (`REBASE._verify_plan`)

Direct translation of the score-extraction block of
`plangen/algorithms/rebase.py`:

  - collect the lines (of `response.split("\n")`) whose stripped form starts
    with `"Score:"`; if any exist, the score text is
    `line.split("Score:")[1].strip()` of the first, fed to `float` —
    a `float` failure is caught and yields the default `50` unclamped;
  - otherwise the last digit run found by `re.findall(r"\d+", response)`,
    or the default `50` if there is none;
  - the parsed value is clamped by `max(0, min(100, score))`. -/

def scoreLineText (response : String) : Option String :=
  match (pySplit response "\n").filter (fun l => pyStartsWith (pyStrip l) "Score:") with
  | [] => none
  | l :: _ => some (pyStrip ((pySplit l "Score:").getD 1 ""))

/-- The value entering the clamp; `none` models the caught `float` exception. -/
def rawScore (response : String) : Option ℚ :=
  match scoreLineText response with
  | some t => parseFloatQ t
  | none =>
    match (digitRuns response).getLast? with
    | some d => some (natOfDigits d.data)
    | none => some 50

def extractScore (response : String) : ℚ :=
  match rawScore response with
  | some v => max 0 (min 100 v)
  | none => 50

/-- C7: REBASE score parsing tolerates a missing `"Score:"` line.  If the
first `"Score:"` line's text parses as a number `v`, the parsed score is `v`;
if no line (stripped) starts with `"Score:"` but the response contains a
digit, the parsed score is the value of the last digit run; if the response
contains no digit at all, the parsed score is the neutral default 50 — never
zero. -/
theorem rebase_score_parsing_fallback (response : String) :
    (∀ t v, scoreLineText response = some t → parseFloatQ t = some v →
        rawScore response = some v) ∧
    ((∀ l ∈ pySplit response "\n", pyStartsWith (pyStrip l) "Score:" = false) →
      ((∃ c ∈ response.data, c.isDigit = true) →
          ∃ d, (digitRuns response).getLast? = some d ∧
            rawScore response = some ((natOfDigits d.data : ℚ))) ∧
      ((∀ c ∈ response.data, c.isDigit = false) →
          rawScore response = some 50 ∧ extractScore response = 50 ∧ (50 : ℚ) ≠ 0)) := by
  constructor
  · intro t v ht hv
    simp only [rawScore, ht, hv]
  · intro hnoline
    have hfilter :
        (pySplit response "\n").filter (fun l => pyStartsWith (pyStrip l) "Score:") = [] := by
      rw [List.filter_eq_nil_iff]
      intro l hl
      simp [hnoline l hl]
    have hnone : scoreLineText response = none := by
      unfold scoreLineText
      rw [hfilter]
    constructor
    · intro ⟨c, hc, hdig⟩
      have hne : digitRuns response ≠ [] := by
        intro h
        have := (digitRuns_eq_nil_iff response).mp h c hc
        rw [hdig] at this
        cases this
      obtain ⟨d, hd⟩ : ∃ d, (digitRuns response).getLast? = some d := by
        cases h : (digitRuns response).getLast? with
        | none => exact absurd (List.getLast?_eq_none_iff.mp h) hne
        | some d => exact ⟨d, rfl⟩
      refine ⟨d, hd, ?_⟩
      simp only [rawScore, hnone, hd]
    · intro hnodig
      have hnil : digitRuns response = [] := (digitRuns_eq_nil_iff response).mpr hnodig
      have hraw : rawScore response = some 50 := by
        simp only [rawScore, hnone, hnil]
        rfl
      refine ⟨hraw, ?_, by norm_num⟩
      simp only [extractScore, hraw]
      norm_num

/-- C7 witness: on a response with neither a `"Score:"` line nor any digit,
the parsed score is the neutral default 50. -/
theorem rebase_score_parsing_fallback_witness :
    rawScore "the plan is excellent" = some 50 ∧
    extractScore "the plan is excellent" = 50 ∧ (50 : ℚ) ≠ 0 :=
  ((rebase_score_parsing_fallback "the plan is excellent").2
    (by decide)).2 (by decide)

/-- C10: every score returned by REBASE's verifier-response parsing lies in
[0, 100]; a parsed value below 0 is clamped to 0 and one above 100 to 100. -/
theorem rebase_score_clamped (response : String) :
    (0 ≤ extractScore response ∧ extractScore response ≤ 100) ∧
    (∀ v, rawScore response = some v → v < 0 → extractScore response = 0) ∧
    (∀ v, rawScore response = some v → 100 < v → extractScore response = 100) := by
  refine ⟨?_, ?_, ?_⟩
  · cases h : rawScore response with
    | none => simp only [extractScore, h]; norm_num
    | some v =>
      simp only [extractScore, h]
      exact ⟨le_max_left 0 _, max_le (by norm_num) (min_le_left 100 v)⟩
  · intro v hv hlt
    simp only [extractScore, hv]
    have h1 : min (100 : ℚ) v = v := min_eq_right (le_of_lt (lt_of_lt_of_le hlt (by norm_num)))
    rw [h1]
    exact max_eq_left (le_of_lt hlt)
  · intro v hv hgt
    simp only [extractScore, hv]
    have h1 : min (100 : ℚ) v = (100 : ℚ) := min_eq_left (le_of_lt hgt)
    rw [h1]
    norm_num

/-- C10 witness: an explicit `Score:` of -5 is clamped to 0, and one of 150
is clamped to 100. -/
theorem rebase_score_clamped_witness :
    extractScore "Score: -5" = 0 ∧ extractScore "Score: 150" = 100 :=
  ⟨(rebase_score_clamped "Score: -5").2.1 (-5) (by decide) (by decide),
   (rebase_score_clamped "Score: 150").2.2 150 (by decide) (by decide)⟩

/-! ## UCB (`plangen/utils/ucb.py`)

State of a `UCB` instance.  The Python `counts` and `values` dicts are keyed
by exactly the (distinct) algorithm names, in first-seen order; they are
modelled as total functions together with the `algorithm_names` list, and
`dict.items()` as mapping over `algorithm_names` (theorems about the
iteration order assume `algorithm_names.Nodup`, which is how the dicts
behave).  Rewards and values are modelled as reals since `select_algorithm`
uses `math.sqrt`/`math.log`; `Real.log`/`Real.sqrt` are total where Python
`math` would raise on a domain error, a case outside every claim. -/

structure UCB where
  algorithm_names : List String
  exploration_weight : ℝ
  counts : String → ℕ
  values : String → ℝ
  total_pulls : ℕ

/-- `UCB.__init__`: zero counts, zero values, zero total pulls. -/
def UCB.init (names : List String) (w : ℝ) : UCB :=
  ⟨names, w, fun _ => 0, fun _ => 0, 0⟩

/-- The UCB score `values[algo] + exploration_weight * sqrt(log(total_pulls) / counts[algo])`. -/
noncomputable def UCB.ucbScore (s : UCB) (algo : String) : ℝ :=
  s.values algo + s.exploration_weight *
    Real.sqrt (Real.log s.total_pulls / s.counts algo)

/-- `UCB.select_algorithm`: the first arm with zero pulls if any (the
`for algo in self.algorithm_names: if counts[algo] == 0: return algo` loop),
otherwise `max(ucb_scores.items(), key=λx. x[1])[0]`.  `none` models the
`ValueError` Python's `max` raises on an empty dict. -/
noncomputable def UCB.select_algorithm (s : UCB) : Option String :=
  match s.algorithm_names.find? (fun a => s.counts a == 0) with
  | some a => some a
  | none =>
    (pyMaxBy Prod.snd (s.algorithm_names.map fun a => (a, s.ucbScore a))).map Prod.fst

/-- `UCB.update`: increment the arm's count and the total, and replace the
arm's value by `((n-1)/n)*value + (1/n)*reward` with `n` the new count. -/
noncomputable def UCB.update (s : UCB) (algorithm : String) (reward : ℝ) : UCB :=
  let n : ℝ := ((s.counts algorithm + 1 : ℕ) : ℝ)
  { s with
    counts := fun a => if a = algorithm then s.counts a + 1 else s.counts a,
    total_pulls := s.total_pulls + 1,
    values := fun a =>
      if a = algorithm then ((n - 1) / n) * s.values a + (1 / n) * reward
      else s.values a }

/-- `UCB.get_best_algorithm`: `max(self.values.items(), key=λx. x[1])[0]`. -/
noncomputable def UCB.get_best_algorithm (s : UCB) : Option String :=
  (pyMaxBy Prod.snd (s.algorithm_names.map fun a => (a, s.values a))).map Prod.fst

/-- A fresh `UCB` followed by a sequence of `update` calls. -/
noncomputable def UCB.runUpdates (names : List String) (w : ℝ) (us : List (String × ℝ)) : UCB :=
  us.foldl (fun s p => s.update p.1 p.2) (UCB.init names w)

theorem UCB.runUpdates_names (names : List String) (w : ℝ) (us : List (String × ℝ)) :
    (UCB.runUpdates names w us).algorithm_names = names := by
  suffices h : ∀ s : UCB, (us.foldl (fun s p => s.update p.1 p.2) s).algorithm_names
      = s.algorithm_names by
    exact h _
  induction us with
  | nil => intro s; rfl
  | cons p rest ih =>
    intro s
    simpa [List.foldl_cons] using ih (s.update p.1 p.2)

theorem UCB.runUpdates_state (names : List String) (w : ℝ) (us : List (String × ℝ)) :
    ∀ a : String,
      (UCB.runUpdates names w us).counts a = (us.filter (fun p => p.1 = a)).length ∧
      (UCB.runUpdates names w us).values a =
        ((us.filter (fun p => p.1 = a)).map Prod.snd).sum /
          ((us.filter (fun p => p.1 = a)).length : ℝ) := by
  induction us using List.reverseRecOn with
  | nil =>
    intro a
    constructor
    · rfl
    · show (0 : ℝ) = 0 / (([] : List (String × ℝ)).length : ℝ)
      simp
  | append_singleton us p ih =>
    intro a
    have hfold : UCB.runUpdates names w (us ++ [p]) =
        (UCB.runUpdates names w us).update p.1 p.2 := by
      unfold UCB.runUpdates
      rw [List.foldl_append]
      rfl
    by_cases hab : p.1 = a
    · -- the updated arm
      have hk := (ih a).1
      have hv := (ih a).2
      have hfilter : (us ++ [p]).filter (fun q => q.1 = a)
          = us.filter (fun q => q.1 = a) ++ [p] := by
        simp [List.filter_append, hab]
      set k := (us.filter (fun q => q.1 = a)).length with hkdef
      constructor
      · rw [hfold]
        show (if a = p.1 then (UCB.runUpdates names w us).counts a + 1
              else (UCB.runUpdates names w us).counts a) = _
        rw [if_pos hab.symm, hk, hfilter]
        simp
      · rw [hfold]
        show (if a = p.1 then _ else _) = _
        rw [if_pos hab.symm]
        have hcounts : (UCB.runUpdates names w us).counts p.1 = k := by
          rw [hab]; exact hk
        rw [hfilter]
        simp only [List.map_append, List.sum_append, List.length_append,
          List.map_cons, List.map_nil, List.sum_cons, List.sum_nil, List.length_cons,
          List.length_nil]
        rw [hcounts, hv, ← hkdef]
        set S := ((us.filter (fun q => q.1 = a)).map Prod.snd).sum with hS
        rcases Nat.eq_zero_or_pos k with hk0 | hkpos
        · have hS0 : S = 0 := by
            have h0 : us.filter (fun q => q.1 = a) = [] := by
              apply List.length_eq_zero.mp
              rw [← hkdef, hk0]
            rw [hS, h0]
            simp
          rw [hk0, hS0]
          norm_num
        · have hkne : (k : ℝ) ≠ 0 := Nat.cast_ne_zero.mpr hkpos.ne'
          have hk1ne : ((k : ℝ) + 1) ≠ 0 := by positivity
          push_cast
          field_simp
          ring
    · -- any other arm is untouched
      have hfilter : (us ++ [p]).filter (fun q => q.1 = a)
          = us.filter (fun q => q.1 = a) := by
        simp [List.filter_append, hab]
      constructor
      · rw [hfold]
        show (if a = p.1 then _ else _) = _
        rw [if_neg (fun h => hab h.symm), hfilter]
        exact (ih a).1
      · rw [hfold]
        show (if a = p.1 then _ else _) = _
        rw [if_neg (fun h => hab h.symm), hfilter]
        exact (ih a).2

/-- C1: `select_algorithm` returns the first arm (in the order the arm names
were given) whose pull count is zero, if one exists; otherwise it returns the
arm maximizing `values[arm] + exploration_weight*sqrt(log(total_pulls)/counts[arm])`,
ties broken by first-seen order (everything before the winner scores strictly
less). -/
theorem ucb_select_algorithm_spec (s : UCB) (_hnd : s.algorithm_names.Nodup) :
    (∀ l₁ a l₂, s.algorithm_names = l₁ ++ a :: l₂ → s.counts a = 0 →
        (∀ b ∈ l₁, s.counts b ≠ 0) → s.select_algorithm = some a) ∧
    ((∀ a ∈ s.algorithm_names, s.counts a ≠ 0) → s.algorithm_names ≠ [] →
      ∃ l₁ a l₂, s.algorithm_names = l₁ ++ a :: l₂ ∧ s.select_algorithm = some a ∧
        (∀ b ∈ s.algorithm_names, s.ucbScore b ≤ s.ucbScore a) ∧
        (∀ b ∈ l₁, s.ucbScore b < s.ucbScore a)) := by
  constructor
  · intro l₁ a l₂ hsplit hzero hbefore
    have hfind : s.algorithm_names.find? (fun b => s.counts b == 0) = some a := by
      rw [hsplit, List.find?_append]
      have h1 : l₁.find? (fun b => s.counts b == 0) = none := by
        rw [List.find?_eq_none]
        intro b hb
        simpa using hbefore b hb
      rw [h1]
      simp [List.find?_cons, hzero]
    unfold UCB.select_algorithm
    rw [hfind]
  · intro hnz hne
    obtain ⟨x, xs, hnames⟩ := List.exists_cons_of_ne_nil hne
    have hfind : s.algorithm_names.find? (fun b => s.counts b == 0) = none := by
      rw [List.find?_eq_none]
      intro b hb
      simpa using hnz b hb
    obtain ⟨l₁, a, l₂, hsplit, hmax, hlt, hle⟩ := pyMaxBy_map_spec (s.ucbScore) x xs
    refine ⟨l₁, a, l₂, by rw [hnames, hsplit], ?_, ?_, hlt⟩
    · unfold UCB.select_algorithm
      rw [hfind, hnames]
      exact hmax
    · intro b hb
      exact hle b (by rwa [hnames] at hb)

/-- C1 witness: with arms `["A", "B"]` where only `"B"` has been pulled,
`select_algorithm` returns the unpulled `"A"`. -/
theorem ucb_select_algorithm_spec_witness :
    (UCB.mk ["A", "B"] 2 (fun a => if a = "B" then 1 else 0) (fun _ => 0) 1).select_algorithm
      = some "A" :=
  (ucb_select_algorithm_spec _ (by decide)).1 [] "A" ["B"] rfl (by decide) (by simp)

/-- C2: after any sequence of `update(arm, reward)` calls on known arms
starting from a fresh instance, each arm's pull count is the number of its
updates, its stored value is the arithmetic mean of the rewards it received
(sum over count; `0` when never pulled, matching the initial `0.0`), and
`get_best_algorithm` returns the arm with the highest stored mean, ties
broken by first-seen order. -/
theorem ucb_update_mean_and_best (names : List String) (w : ℝ) (us : List (String × ℝ))
    (_hnd : names.Nodup) (_hknown : ∀ p ∈ us, p.1 ∈ names) (hne : names ≠ []) :
    (∀ a, (UCB.runUpdates names w us).counts a = (us.filter (fun p => p.1 = a)).length) ∧
    (∀ a, (UCB.runUpdates names w us).values a =
        ((us.filter (fun p => p.1 = a)).map Prod.snd).sum /
          ((us.filter (fun p => p.1 = a)).length : ℝ)) ∧
    (∃ l₁ b l₂, names = l₁ ++ b :: l₂ ∧
      (UCB.runUpdates names w us).get_best_algorithm = some b ∧
      (∀ a ∈ names, (UCB.runUpdates names w us).values a
        ≤ (UCB.runUpdates names w us).values b) ∧
      (∀ a ∈ l₁, (UCB.runUpdates names w us).values a
        < (UCB.runUpdates names w us).values b)) := by
  refine ⟨fun a => (UCB.runUpdates_state names w us a).1,
          fun a => (UCB.runUpdates_state names w us a).2, ?_⟩
  obtain ⟨x, xs, hnames⟩ := List.exists_cons_of_ne_nil hne
  obtain ⟨l₁, b, l₂, hsplit, hmax, hlt, hle⟩ :=
    pyMaxBy_map_spec ((UCB.runUpdates names w us).values) x xs
  refine ⟨l₁, b, l₂, by rw [hnames, hsplit], ?_, ?_, hlt⟩
  · unfold UCB.get_best_algorithm
    rw [show (UCB.runUpdates names w us).algorithm_names = x :: xs from by
      rw [UCB.runUpdates_names, hnames]]
    exact hmax
  · intro a ha
    exact hle a (by rwa [hnames] at ha)

/-- Three arms, three updates each (hand-checkable means: A ↦ 2, B ↦ 2, C ↦ 1). -/
def ucbUpdatesExample : List (String × ℝ) :=
  [("A", 1), ("B", 2), ("C", 3), ("A", 2), ("B", 2), ("C", 0), ("A", 3), ("B", 2), ("C", 0)]

/-- C2 witness: the update-sequence theorem instantiated at three arms with
three updates each; the counts follow and `get_best_algorithm` returns a
first-seen maximal arm. -/
theorem ucb_update_mean_and_best_witness :
    (UCB.runUpdates ["A", "B", "C"] 2 ucbUpdatesExample).counts "A" = 3 ∧
    (UCB.runUpdates ["A", "B", "C"] 2 ucbUpdatesExample).values "A" =
      ((ucbUpdatesExample.filter (fun p => p.1 = "A")).map Prod.snd).sum /
        ((ucbUpdatesExample.filter (fun p => p.1 = "A")).length : ℝ) ∧
    (∃ l₁ b l₂, ["A", "B", "C"] = l₁ ++ b :: l₂ ∧
      (UCB.runUpdates ["A", "B", "C"] 2 ucbUpdatesExample).get_best_algorithm = some b ∧
      (∀ a ∈ ["A", "B", "C"],
        (UCB.runUpdates ["A", "B", "C"] 2 ucbUpdatesExample).values a
          ≤ (UCB.runUpdates ["A", "B", "C"] 2 ucbUpdatesExample).values b) ∧
      (∀ a ∈ l₁,
        (UCB.runUpdates ["A", "B", "C"] 2 ucbUpdatesExample).values a
          < (UCB.runUpdates ["A", "B", "C"] 2 ucbUpdatesExample).values b)) := by
  have h := ucb_update_mean_and_best ["A", "B", "C"] 2 ucbUpdatesExample
    (by decide) (by decide) (by decide)
  refine ⟨?_, h.2.1 "A", h.2.2⟩
  rw [h.1 "A"]
  decide

/-! ## Observer events

Every `notify_observers` payload carries at least an `algorithm_type`
discriminator and an `event` lifecycle tag; the embedding records exactly
these two fields per emitted event (further payload fields are elided). -/

structure Event where
  algorithm_type : String
  event : String
deriving DecidableEq

/-! ## REBASE (`plangen/algorithms/rebase.py`)

`run` extracts constraints, generates and verifies an initial plan, then
refines up to `max_iterations` times, stopping as soon as
`refined_score <= current_score + improvement_threshold`.  The LLM behind
`_generate_initial_plan`, `_refine_plan` and `_verify_plan`'s prompt is the
oracle environment below (keyed by exactly the data the source interpolates
into the prompts); `_verify_plan` parses the response with `extractScore`.
`run` performs no emptiness check on `problem_statement`. -/

structure RebaseConfig where
  max_iterations : ℕ
  improvement_threshold : ℚ

structure RebaseEnv where
  constraintsOf : String → List String
  initialResponse : String → String → String
  refineResponse : String → String → String → String → String
  verifyResponse : String → List String → String → String

/-- `"\n".join([f"- {constraint}" for constraint in constraints])`. -/
def formatDashList (constraints : List String) : String :=
  pyJoin "\n" (constraints.map (fun c => ⟨'-' :: ' ' :: c.data⟩))

/-- `REBASE._generate_initial_plan`: LLM response, `.strip()`ed. -/
def rebaseInitialPlan (env : RebaseEnv) (problem fc : String) : String :=
  pyStrip (env.initialResponse problem fc)

/-- `REBASE._refine_plan`: LLM response, `.strip()`ed. -/
def rebaseRefinePlan (env : RebaseEnv) (problem fc plan feedback : String) : String :=
  pyStrip (env.refineResponse problem fc plan feedback)

/-- `REBASE._verify_plan`: the full LLM response is the feedback and the
score is parsed (and clamped) out of it. -/
def rebaseVerifyPlan (env : RebaseEnv) (problem : String) (constraints : List String)
    (plan : String) : String × ℚ :=
  let response := env.verifyResponse problem constraints plan
  (response, extractScore response)

/-- One entry of the `iterations` metadata list: `{plan, score, feedback}`. -/
structure RebaseIter where
  plan : String
  score : ℚ
  feedback : String
deriving DecidableEq

/-- The initial plan/score/feedback of a REBASE run. -/
def rebaseInitIter (env : RebaseEnv) (problem : String) : RebaseIter :=
  let constraints := env.constraintsOf problem
  let fc := formatDashList constraints
  let p0 := rebaseInitialPlan env problem fc
  let v := rebaseVerifyPlan env problem constraints p0
  ⟨p0, v.2, v.1⟩

/-- One refinement round: refine the current plan with its feedback, verify. -/
def rebaseRefineStep (env : RebaseEnv) (problem : String) (cur : RebaseIter) : RebaseIter :=
  let constraints := env.constraintsOf problem
  let fc := formatDashList constraints
  let rp := rebaseRefinePlan env problem fc cur.plan cur.feedback
  let v := rebaseVerifyPlan env problem constraints rp
  ⟨rp, v.2, v.1⟩

/-- The `for iteration in range(max_iterations)` refinement loop: each round
appends its record to `iterations`, emits a `plan_refinement` event, and
stops (keeping the current iterate) when
`refined_score <= current_score + improvement_threshold`. -/
def rebaseLoop (cfg : RebaseConfig) (env : RebaseEnv) (problem : String) :
    ℕ → RebaseIter → List RebaseIter → List Event →
    RebaseIter × List RebaseIter × List Event
  | 0, cur, iters, evs => (cur, iters, evs)
  | k+1, cur, iters, evs =>
    let next := rebaseRefineStep env problem cur
    let iters' := iters ++ [next]
    let evs' := evs ++ [⟨"REBASE", "plan_refinement"⟩]
    if next.score ≤ cur.score + cfg.improvement_threshold then
      (cur, iters', evs' ++ [⟨"REBASE", "refinement_stopped"⟩])
    else
      rebaseLoop cfg env problem k next iters' evs'

structure RebaseResult where
  plan : String
  score : ℚ
  iterations : List RebaseIter
  constraints : List String
  events : List Event
deriving DecidableEq

/-- `REBASE.run` (the metadata is represented by its `iterations` and
`constraints` entries). -/
def rebaseRun (cfg : RebaseConfig) (env : RebaseEnv) (problem : String) : RebaseResult :=
  let constraints := env.constraintsOf problem
  let init := rebaseInitIter env problem
  let evs1 : List Event := [⟨"REBASE", "algorithm_start"⟩, ⟨"REBASE", "initial_plan"⟩]
  let r := rebaseLoop cfg env problem cfg.max_iterations init [init] evs1
  ⟨r.1.plan, r.1.score, r.2.1, constraints, r.2.2 ++ [⟨"REBASE", "algorithm_complete"⟩]⟩

theorem rebaseLoop_stop_eq (cfg : RebaseConfig) (env : RebaseEnv) (problem : String)
    (k : ℕ) (cur : RebaseIter) (iters : List RebaseIter) (evs : List Event)
    (h : (rebaseRefineStep env problem cur).score ≤ cur.score + cfg.improvement_threshold) :
    rebaseLoop cfg env problem (k+1) cur iters evs =
      (cur, iters ++ [rebaseRefineStep env problem cur],
       evs ++ [⟨"REBASE", "plan_refinement"⟩, ⟨"REBASE", "refinement_stopped"⟩]) := by
  simp [rebaseLoop, h]

theorem rebaseLoop_iterations_extend (cfg : RebaseConfig) (env : RebaseEnv) (problem : String) :
    ∀ (k : ℕ) (cur : RebaseIter) (iters : List RebaseIter) (evs : List Event),
      ∃ suf, (rebaseLoop cfg env problem k cur iters evs).2.1 = iters ++ suf := by
  intro k
  induction k with
  | zero => intro cur iters evs; exact ⟨[], by simp [rebaseLoop]⟩
  | succ k ih =>
    intro cur iters evs
    by_cases h : (rebaseRefineStep env problem cur).score
        ≤ cur.score + cfg.improvement_threshold
    · exact ⟨[rebaseRefineStep env problem cur],
        by rw [rebaseLoop_stop_eq cfg env problem k cur iters evs h]⟩
    · obtain ⟨suf, hsuf⟩ := ih (rebaseRefineStep env problem cur)
        (iters ++ [rebaseRefineStep env problem cur])
        (evs ++ [⟨"REBASE", "plan_refinement"⟩])
      refine ⟨[rebaseRefineStep env problem cur] ++ suf, ?_⟩
      simp only [rebaseLoop, if_neg h]
      rw [hsuf]
      simp

theorem rebaseLoop_events_extend (cfg : RebaseConfig) (env : RebaseEnv) (problem : String) :
    ∀ (k : ℕ) (cur : RebaseIter) (iters : List RebaseIter) (evs : List Event),
      ∃ suf, (rebaseLoop cfg env problem k cur iters evs).2.2 = evs ++ suf := by
  intro k
  induction k with
  | zero => intro cur iters evs; exact ⟨[], by simp [rebaseLoop]⟩
  | succ k ih =>
    intro cur iters evs
    by_cases h : (rebaseRefineStep env problem cur).score
        ≤ cur.score + cfg.improvement_threshold
    · refine ⟨[⟨"REBASE", "plan_refinement"⟩, ⟨"REBASE", "refinement_stopped"⟩], ?_⟩
      simp [rebaseLoop, h]
    · obtain ⟨suf, hsuf⟩ := ih (rebaseRefineStep env problem cur) (iters ++ [rebaseRefineStep env problem cur])
        (evs ++ [⟨"REBASE", "plan_refinement"⟩])
      refine ⟨[⟨"REBASE", "plan_refinement"⟩] ++ suf, ?_⟩
      simp only [rebaseLoop, if_neg h]
      rw [hsuf]
      simp

/-- C6: if a refinement round's score is at most the current score plus
`improvement_threshold`, the loop stops and keeps the pre-refinement iterate
while still recording the rejected refinement; iteration records are only
ever appended; in particular if the very first refinement fails the
threshold, `run` returns the initial plan and score and its metadata holds
exactly the initial record and the rejected refinement. -/
theorem rebase_insufficient_improvement (cfg : RebaseConfig) (env : RebaseEnv)
    (problem : String) :
    (∀ (k : ℕ) (cur : RebaseIter) (iters : List RebaseIter) (evs : List Event),
      (rebaseRefineStep env problem cur).score ≤ cur.score + cfg.improvement_threshold →
      rebaseLoop cfg env problem (k+1) cur iters evs =
        (cur, iters ++ [rebaseRefineStep env problem cur],
         evs ++ [⟨"REBASE", "plan_refinement"⟩, ⟨"REBASE", "refinement_stopped"⟩])) ∧
    (∀ (k : ℕ) (cur : RebaseIter) (iters : List RebaseIter) (evs : List Event),
      ∃ suf, (rebaseLoop cfg env problem k cur iters evs).2.1 = iters ++ suf) ∧
    (1 ≤ cfg.max_iterations →
      (rebaseRefineStep env problem (rebaseInitIter env problem)).score ≤
        (rebaseInitIter env problem).score + cfg.improvement_threshold →
      (rebaseRun cfg env problem).plan = (rebaseInitIter env problem).plan ∧
      (rebaseRun cfg env problem).score = (rebaseInitIter env problem).score ∧
      (rebaseRun cfg env problem).iterations =
        [rebaseInitIter env problem,
         rebaseRefineStep env problem (rebaseInitIter env problem)]) := by
  refine ⟨fun k cur iters evs h => rebaseLoop_stop_eq cfg env problem k cur iters evs h,
    rebaseLoop_iterations_extend cfg env problem, ?_⟩
  intro hpos hthr
  obtain ⟨m, hm⟩ : ∃ m, cfg.max_iterations = m + 1 :=
    ⟨cfg.max_iterations - 1, by omega⟩
  have hloop := rebaseLoop_stop_eq cfg env problem m (rebaseInitIter env problem)
    [rebaseInitIter env problem]
    [⟨"REBASE", "algorithm_start"⟩, ⟨"REBASE", "initial_plan"⟩] hthr
  refine ⟨?_, ?_, ?_⟩ <;>
    simp [rebaseRun, hm, hloop]

/-- Oracle for the C6 witness: the initial plan scores 60 and the refined
plan scores 55, so the first refinement misses the threshold. -/
def rebaseEnvW : RebaseEnv :=
  ⟨fun _ => ["c1"],
   fun _ _ => " plan0 ",
   fun _ _ _ _ => "plan1",
   fun _ _ p => if p = "plan0" then "Score: 60" else "Score: 55"⟩

def rebaseCfgW : RebaseConfig := ⟨5, 1/10⟩

/-- C6 witness: with the oracle above, the first refinement (55) fails the
60 + 0.1 threshold, so `run` returns the initial plan with score 60 and a
two-entry iteration record. -/
theorem rebase_insufficient_improvement_witness :
    (rebaseRun rebaseCfgW rebaseEnvW "prob").plan = "plan0" ∧
    (rebaseRun rebaseCfgW rebaseEnvW "prob").score = 60 ∧
    (rebaseRun rebaseCfgW rebaseEnvW "prob").iterations.length = 2 := by
  have h1 : (rebaseInitIter rebaseEnvW "prob").plan = "plan0" := by decide
  have h2 : (rebaseInitIter rebaseEnvW "prob").score = 60 := by decide
  have h3 : (rebaseRefineStep rebaseEnvW "prob" (rebaseInitIter rebaseEnvW "prob")).score = 55 := by
    decide
  have h := (rebase_insufficient_improvement rebaseCfgW rebaseEnvW "prob").2.2
    (by decide)
    (by rw [h3, h2]; show (55 : ℚ) ≤ 60 + 1/10; norm_num)
  refine ⟨h.1.trans h1, h.2.1.trans h2, ?_⟩
  rw [h.2.2]
  rfl

/-! ## BestOfN (`plangen/algorithms/best_of_n.py`)

`run` rejects an empty (all-whitespace) problem statement with a
`ValueError` before touching any collaborator, extracts constraints, then
generates and verifies `n_plans` candidates (sequential path; the
thread-pool parallel path is not modelled — for the `basic` strategy it
collects the same results in submission order) and returns the candidate at
`max(range(len(scores)), key=λi. scores[i])`.  The chosen sampling
strategy's `sample_fn` and `_verify_plan` (the verification agent) are the
oracle environment. -/

structure BoNEnv where
  constraintsOf : String → List String
  samplePlan : String → List String → List (String × ℚ × String) → String
  verifyPlanOf : String → List String → String → String × ℚ

/-- `BestOfN._sequential_generate`: each round samples a plan from the
previous results, verifies it, and appends `(plan, score, feedback)`,
emitting `plan_generation_start`/`plan_generation_complete` events. -/
def bonStep (env : BoNEnv) (problem : String) (constraints : List String)
    (acc : List (String × ℚ × String) × List Event) (_i : ℕ) :
    List (String × ℚ × String) × List Event :=
  let plan := env.samplePlan problem constraints acc.1
  let v := env.verifyPlanOf problem constraints plan
  (acc.1 ++ [(plan, v.2, v.1)],
   acc.2 ++ [⟨"BestOfN", "plan_generation_start"⟩,
             ⟨"BestOfN", "plan_generation_complete"⟩])

def bonSequential (env : BoNEnv) (problem : String) (constraints : List String)
    (n : ℕ) : List (String × ℚ × String) × List Event :=
  (List.range n).foldl (bonStep env problem constraints) ([], [])

/-- The generated `(plan, score, feedback)` triples of a run. -/
def bonResults (env : BoNEnv) (problem : String) (n : ℕ) : List (String × ℚ × String) :=
  (bonSequential env problem (env.constraintsOf problem) n).1

/-- The score list `[r[1] for r in results]` of a run. -/
def bonScores (env : BoNEnv) (problem : String) (n : ℕ) : List ℚ :=
  (bonResults env problem n).map (fun r => r.2.1)

structure BoNResult where
  best_plan : String
  best_score : ℚ
  results : List (String × ℚ × String)
  constraints : List String
  events : List Event
deriving DecidableEq

/-- `BestOfN.run` (sequential).  `Except.error` models the raised
`ValueError`/`RuntimeError`; the runtime error occurs when `n_plans = 0`
(unpacking `zip(*results)` of an empty result list fails and is re-raised
as `RuntimeError`). -/
def bestOfNRun (n_plans : ℕ) (env : BoNEnv) (problem : String) :
    Except String BoNResult :=
  if pyStrip problem = "" then
    Except.error "Problem statement cannot be empty"
  else
    match pyMaxBy (fun i => (bonScores env problem n_plans).getD i 0)
        (List.range (bonScores env problem n_plans).length) with
    | none => Except.error "Error running Best of N algorithm: not enough values to unpack"
    | some best_idx =>
      Except.ok
        ⟨((bonResults env problem n_plans).getD best_idx ("", 0, "")).1,
         (bonScores env problem n_plans).getD best_idx 0,
         bonResults env problem n_plans,
         env.constraintsOf problem,
         [⟨"BestOfN", "algorithm_start"⟩]
           ++ (bonSequential env problem (env.constraintsOf problem) n_plans).2
           ++ [⟨"BestOfN", "best_plan_selected"⟩, ⟨"BestOfN", "algorithm_complete"⟩]⟩

theorem bonSequential_length (env : BoNEnv) (problem : String)
    (constraints : List String) (n : ℕ) :
    (bonSequential env problem constraints n).1.length = n := by
  suffices h : ∀ (acc : List (String × ℚ × String) × List Event),
      (((List.range n).foldl (bonStep env problem constraints) acc).1).length
        = acc.1.length + n by
    simpa [bonSequential] using h ([], [])
  induction n with
  | zero => intro acc; simp
  | succ n ih =>
    intro acc
    rw [List.range_succ, List.foldl_append]
    simp only [List.foldl_cons, List.foldl_nil]
    have hstep : ∀ (b : List (String × ℚ × String) × List Event) (i : ℕ),
        (bonStep env problem constraints b i).1.length = b.1.length + 1 := by
      intro b i
      simp [bonStep]
    rw [hstep, ih acc]
    omega

/-- In a split of `List.range n` at an element `i`, the part before `i` is
exactly `List.range i` (and `i < n`). -/
theorem range_split_eq {n i : ℕ} {l₁ l₂ : List ℕ}
    (h : List.range n = l₁ ++ i :: l₂) : l₁ = List.range i ∧ i < n := by
  have hlen : l₁.length + (i :: l₂).length = n := by
    simpa using (congrArg List.length h).symm
  have hlt : l₁.length < n := by simp at hlen; omega
  have hsome : (List.range n)[l₁.length]? = some i := by
    rw [h, List.getElem?_append_right (le_refl l₁.length)]
    simp
  have hsome' : (List.range n)[l₁.length]? = some l₁.length := by
    rw [List.getElem?_range hlt]
  have hi : i = l₁.length := by
    rw [hsome] at hsome'
    exact Option.some_injective _ hsome'
  have htake : (List.range n).take l₁.length = l₁ := by
    rw [h]
    exact List.take_left l₁ (i :: l₂)
  rw [List.take_range] at htake
  have hmin : min l₁.length n = l₁.length := Nat.min_eq_left hlt.le
  rw [hmin] at htake
  exact ⟨by rw [hi]; exact htake.symm, by omega⟩

/-- C5: a `BestOfN` run with `n ≥ 1` plans on a non-empty problem succeeds,
scores all `n` candidates, and returns the plan and score of the first
candidate (lowest index in generation order) achieving the maximum score. -/
theorem bon_returns_first_max (n : ℕ) (env : BoNEnv) (problem : String)
    (hp : pyStrip problem ≠ "") (hn : 1 ≤ n) :
    ∃ r : BoNResult, bestOfNRun n env problem = Except.ok r ∧
      r.results.length = n ∧
      ∃ i, i < n ∧
        r.best_plan = (r.results.getD i ("", 0, "")).1 ∧
        r.best_score = (r.results.map (fun p => p.2.1)).getD i 0 ∧
        (∀ j < n, (r.results.map (fun p => p.2.1)).getD j 0
          ≤ (r.results.map (fun p => p.2.1)).getD i 0) ∧
        (∀ j < i, (r.results.map (fun p => p.2.1)).getD j 0
          < (r.results.map (fun p => p.2.1)).getD i 0) := by
  obtain ⟨m, hm⟩ : ∃ m, n = m + 1 := ⟨n - 1, by omega⟩
  have hslen : (bonScores env problem n).length = n := by
    rw [bonScores, List.length_map, bonResults, bonSequential_length]
  have hrange : List.range (bonScores env problem n).length
      = 0 :: (List.range m).map Nat.succ := by
    rw [hslen, hm, List.range_succ_eq_map]
  obtain ⟨l₁, i, l₂, hsplit, hmax, hbefore, hall⟩ :=
    pyMaxBy_spec (fun i => (bonScores env problem n).getD i 0) 0
      ((List.range m).map Nat.succ)
  have hsplitn : List.range n = l₁ ++ i :: l₂ := by
    rw [← hslen, hrange]
    exact hsplit
  obtain ⟨hl₁, hilt⟩ := range_split_eq hsplitn
  have hmax' : pyMaxBy (fun i => (bonScores env problem n).getD i 0)
      (List.range (bonScores env problem n).length) = some i := by
    rw [hrange]
    exact hmax
  have hrun : bestOfNRun n env problem =
      Except.ok
        ⟨((bonResults env problem n).getD i ("", 0, "")).1,
         (bonScores env problem n).getD i 0,
         bonResults env problem n,
         env.constraintsOf problem,
         [⟨"BestOfN", "algorithm_start"⟩]
           ++ (bonSequential env problem (env.constraintsOf problem) n).2
           ++ [⟨"BestOfN", "best_plan_selected"⟩, ⟨"BestOfN", "algorithm_complete"⟩]⟩ := by
    unfold bestOfNRun
    rw [if_neg hp, hmax']
  refine ⟨_, hrun, ?_, i, hilt, rfl, rfl, ?_, ?_⟩
  · show (bonResults env problem n).length = n
    rw [bonResults, bonSequential_length]
  · intro j hj
    have hjmem : j ∈ List.range n := List.mem_range.mpr hj
    rw [hsplitn] at hjmem
    show (bonScores env problem n).getD j 0 ≤ (bonScores env problem n).getD i 0
    rcases List.mem_append.mp hjmem with h | h
    · exact le_of_lt (hbefore j h)
    · rcases List.mem_cons.mp h with h | h
      · rw [h]
      · exact hall j (by
          rw [hsplit]
          exact List.mem_append_right _ (List.mem_cons_of_mem _ h))
  · intro j hj
    have : j ∈ l₁ := by
      rw [hl₁]
      exact List.mem_range.mpr hj
    exact hbefore j this

/-- Oracle for the C5 witness: five distinct plans scored 10, 90, 30, 90, 5. -/
def bonEnvW : BoNEnv :=
  ⟨fun _ => [],
   fun _ _ prev =>
     match prev.length with
     | 0 => "p0" | 1 => "p1" | 2 => "p2" | 3 => "p3" | _ => "p4",
   fun _ _ plan =>
     (plan, if plan = "p0" then 10 else if plan = "p1" then 90
            else if plan = "p2" then 30 else if plan = "p3" then 90 else 5)⟩

/-- C5 witness: with scores `[10, 90, 30, 90, 5]` the returned score is 90
and the returned plan is the first candidate achieving it (index 1, `"p1"`,
not index 3). -/
theorem bon_returns_first_max_witness :
    (∃ r : BoNResult, bestOfNRun 5 bonEnvW "solve it" = Except.ok r ∧
      r.results.length = 5 ∧
      ∃ i, i < 5 ∧
        r.best_plan = (r.results.getD i ("", 0, "")).1 ∧
        r.best_score = (r.results.map (fun p => p.2.1)).getD i 0 ∧
        (∀ j < 5, (r.results.map (fun p => p.2.1)).getD j 0
          ≤ (r.results.map (fun p => p.2.1)).getD i 0) ∧
        (∀ j < i, (r.results.map (fun p => p.2.1)).getD j 0
          < (r.results.map (fun p => p.2.1)).getD i 0)) ∧
    (bestOfNRun 5 bonEnvW "solve it").toOption.map
      (fun r => (r.best_plan, r.best_score)) = some ("p1", 90) :=
  ⟨bon_returns_first_max 5 bonEnvW "solve it" (by decide) (by decide), by decide⟩

/-! ### BestOfN diverse sampling

`BestOfN._diverse_sampling`: with no previous results it falls back to
basic sampling.  When the diverse-plan template loads, the higher-temperature
generation is returned directly — with **no** similarity check and no use of
`max_retries`.  Only in the template-failure handler is one candidate
generated, checked once with `_is_diverse_enough`, and replaced by a single
basic sample if the check fails.  `max_retries` is stored by `__init__` but
never read. -/

structure BoNConfig where
  min_similarity : ℚ
  max_retries : ℕ

/-- `plan.lower().split()` as a set of tokens. -/
def wordSet (s : String) : Finset String :=
  (pyWords (pyLower s)).toFinset

/-- Token-set Jaccard similarity
`len(plan_words & prev_words) / len(plan_words | prev_words)` (the division
is ℚ division, total where Python would raise `ZeroDivisionError` on two
empty token sets — a case outside the claims). -/
def jaccard (a b : Finset String) : ℚ :=
  ((a ∩ b).card : ℚ) / ((a ∪ b).card : ℚ)

/-- `BestOfN._is_diverse_enough`: `False` as soon as some previous plan has
similarity strictly above `min_similarity`, else `True`. -/
def isDiverseEnough (min_similarity : ℚ) (plan : String) (previous_plans : List String) : Bool :=
  previous_plans.all (fun prev => jaccard (wordSet plan) (wordSet prev) ≤ min_similarity)

structure DiverseEnv where
  templateOk : Bool
  diverseResponse : List String → String
  fallbackPlan : List (String × ℚ × String) → String
  basicPlan : String

/-- `BestOfN._diverse_sampling` (the problem statement and constraints are
fixed inside the oracles). -/
def diverseSampling (cfg : BoNConfig) (env : DiverseEnv)
    (previous : List (String × ℚ × String)) : String :=
  if previous.isEmpty then env.basicPlan
  else if env.templateOk then env.diverseResponse (previous.map (fun r => r.1))
  else
    let plan := env.fallbackPlan previous
    if isDiverseEnough cfg.min_similarity plan (previous.map (fun r => r.1)) then plan
    else env.basicPlan

/-- Oracle whose template path regenerates the very plan already present. -/
def diverseEnvW : DiverseEnv :=
  ⟨true, fun _ => "the same plan", fun _ => "unused", "unused basic"⟩

/-- C8 (against the claim): whenever the diverse-plan template is available,
`_diverse_sampling` returns the generated candidate unconditionally — no
similarity check and no retry — so a candidate identical to a previous one
(Jaccard similarity 1 > min_similarity = 1/2, hence rejected by
`_is_diverse_enough`) is still accepted immediately. -/
theorem bon_diverse_no_retry :
    (∀ (cfg : BoNConfig) (env : DiverseEnv) (previous : List (String × ℚ × String)),
      previous ≠ [] → env.templateOk = true →
      diverseSampling cfg env previous = env.diverseResponse (previous.map (fun r => r.1))) ∧
    (isDiverseEnough (1/2) "the same plan" ["the same plan"] = false ∧
     diverseSampling ⟨1/2, 5⟩ diverseEnvW [("the same plan", 50, "feedback")]
       = "the same plan") := by
  refine ⟨?_, ?_, ?_⟩
  · intro cfg env previous hne htpl
    have hempty : previous.isEmpty = false := by
      cases previous with
      | nil => exact absurd rfl hne
      | cons a l => rfl
    simp [diverseSampling, hempty, htpl]
  · have hinter : (wordSet "the same plan" ∩ wordSet "the same plan").card = 3 := by decide
    have hunion : (wordSet "the same plan" ∪ wordSet "the same plan").card = 3 := by decide
    have hjac : jaccard (wordSet "the same plan") (wordSet "the same plan") = 1 := by
      rw [jaccard, hinter, hunion]
      norm_num
    simp only [isDiverseEnough, List.all_cons, List.all_nil, Bool.and_true]
    rw [hjac]
    simp only [decide_eq_false_iff_not]
    norm_num
  · rfl

/-- C8 witness: the no-check-no-retry equation of the template path,
instantiated. -/
theorem bon_diverse_no_retry_witness :
    diverseSampling ⟨1/2, 5⟩ diverseEnvW [("q", 1, "f")]
      = diverseEnvW.diverseResponse ["q"] :=
  bon_diverse_no_retry.1 ⟨1/2, 5⟩ diverseEnvW [("q", 1, "f")] (by simp) rfl

/-! ### Empty problem statements

`BestOfN.run` raises `ValueError("Problem statement cannot be empty")`
before calling any collaborator when `problem_statement.strip()` is falsy.
`REBASE.run` (likewise `TreeOfThought.run` and `MixtureOfAlgorithms.run`)
has no such check: it immediately calls the constraint agent and proceeds
normally, contradicting `BaseAlgorithm.run`'s documented
`Raises ValueError: If the problem statement is empty`. -/

/-- C3 (against the claim): BestOfN rejects whitespace-only problems with
the `ValueError` independently of every collaborator, but a REBASE run on
the empty problem statement consults the constraint extractor and completes
normally, returning a populated result instead of raising. -/
theorem empty_problem_rejection :
    (∀ (n : ℕ) (env : BoNEnv) (problem : String), pyStrip problem = "" →
      bestOfNRun n env problem = Except.error "Problem statement cannot be empty") ∧
    (∀ (cfg : RebaseConfig) (env : RebaseEnv),
      (rebaseRun cfg env "").constraints = env.constraintsOf "" ∧
      (rebaseRun cfg env "").iterations ≠ []) := by
  constructor
  · intro n env problem hp
    unfold bestOfNRun
    rw [if_pos hp]
  · intro cfg env
    constructor
    · rfl
    · show (rebaseLoop cfg env "" cfg.max_iterations (rebaseInitIter env "")
        [rebaseInitIter env ""] _).2.1 ≠ []
      obtain ⟨suf, hsuf⟩ := rebaseLoop_iterations_extend cfg env ""
        cfg.max_iterations (rebaseInitIter env "")
        [rebaseInitIter env ""]
        [⟨"REBASE", "algorithm_start"⟩, ⟨"REBASE", "initial_plan"⟩]
      rw [hsuf]
      simp

/-- C3 witness: a three-space problem statement is rejected by BestOfN. -/
theorem empty_problem_rejection_witness :
    bestOfNRun 3 bonEnvW "   " = Except.error "Problem statement cannot be empty" :=
  empty_problem_rejection.1 3 bonEnvW "   " (by decide)

/-! ## Stable descending sort (Python `list.sort(key=..., reverse=True)`)

Python's sort is stable: descending by key, with equal keys kept in their
original relative order.  That is exactly sorting the `enum`-indexed list by
the linear order "larger key first, then smaller original index first". -/

def stableDescRel {α : Type} (f : α → ℚ) (a b : ℕ × α) : Prop :=
  f b.2 < f a.2 ∨ (f a.2 = f b.2 ∧ a.1 ≤ b.1)

instance stableDescRel.decRel {α : Type} (f : α → ℚ) : DecidableRel (stableDescRel f) :=
  fun a b => by unfold stableDescRel; infer_instance

instance stableDescRel.total {α : Type} (f : α → ℚ) :
    IsTotal (ℕ × α) (stableDescRel f) := by
  constructor
  intro a b
  rcases lt_trichotomy (f a.2) (f b.2) with h | h | h
  · exact Or.inr (Or.inl h)
  · rcases Nat.le_total a.1 b.1 with h' | h'
    · exact Or.inl (Or.inr ⟨h, h'⟩)
    · exact Or.inr (Or.inr ⟨h.symm, h'⟩)
  · exact Or.inl (Or.inl h)

instance stableDescRel.trans {α : Type} (f : α → ℚ) :
    IsTrans (ℕ × α) (stableDescRel f) := by
  constructor
  intro a b c hab hbc
  rcases hab with hab | ⟨hab, hab'⟩
  · rcases hbc with hbc | ⟨hbc, _⟩
    · exact Or.inl (lt_trans hbc hab)
    · exact Or.inl (hbc ▸ hab)
  · rcases hbc with hbc | ⟨hbc, hbc'⟩
    · exact Or.inl (lt_of_lt_of_le hbc (le_of_eq hab.symm))
    · exact Or.inr ⟨hab.trans hbc, le_trans hab' hbc'⟩

/-- Stable descending sort by key `f`. -/
def pySortDescBy {α : Type} (f : α → ℚ) (l : List α) : List α :=
  ((l.enum).insertionSort (stableDescRel f)).map Prod.snd

theorem pySortDescBy_perm {α : Type} (f : α → ℚ) (l : List α) :
    (pySortDescBy f l).Perm l := by
  have h1 : ((l.enum).insertionSort (stableDescRel f)).Perm l.enum :=
    List.perm_insertionSort _ _
  have h2 := h1.map Prod.snd
  rwa [List.enum_map_snd] at h2

theorem pySortDescBy_pairwise {α : Type} (f : α → ℚ) (l : List α) :
    (pySortDescBy f l).Pairwise (fun a b => f b ≤ f a) := by
  have hs : ((l.enum).insertionSort (stableDescRel f)).Sorted (stableDescRel f) :=
    List.sorted_insertionSort _ _
  have : ((l.enum).insertionSort (stableDescRel f)).Pairwise (stableDescRel f) := hs
  refine List.Pairwise.map Prod.snd ?_ this
  intro a b hab
  rcases hab with h | ⟨h, _⟩
  · exact le_of_lt h
  · exact le_of_eq h.symm

/-! ## TreeOfThought (`plangen/algorithms/tree_of_thought.py`)

`run` explores a beam of step-sequences: per depth each beam node is either
recognised complete (verified, kept, and the loop breaks on the best
complete solution of that depth) or expanded into `branching_factor`
children, each scored through the step-reward prompt; the next beam is the
stable descending-by-score sort of the expanded nodes truncated to
`beam_width`.  `run` contains **no** `notify_observers` call and no
emptiness check of the problem statement.  The root node's missing
`feedback` dict key is modelled as `""` (it is never read); the Python
`(None, float('-inf'))` "no plan found" result is `none`. -/

structure ToTConfig where
  branching_factor : ℕ
  max_depth : ℕ
  beam_width : ℕ

structure ToTNode where
  steps : List String
  score : ℚ
  depth : ℕ
  complete : Bool
  feedback : String
deriving DecidableEq

/-- An entry of the `all_paths` metadata list. -/
structure ToTPath where
  steps : List String
  score : ℚ
  feedback : String
  depth : ℕ
  complete : Bool
deriving DecidableEq

structure ToTEnv where
  constraintsOf : String → List String
  completeResponse : String → String → String
  stepResponse : String → String → ℕ → String
  rewardResponse : String → String → String → String
  verifyPlanOf : String → List String → String → String × ℚ

/-- `"\n".join(steps)`. -/
def joinSteps (steps : List String) : String := pyJoin "\n" steps

/-- `TreeOfThought._is_complete`: `False` without consulting the LLM when
there are no steps, else whether the response strips to `"1"`. -/
def totIsComplete (env : ToTEnv) (problem : String) (steps : List String) : Bool :=
  if steps.isEmpty then false
  else pyStrip (env.completeResponse problem (joinSteps steps)) = "1"

/-- `TreeOfThought._generate_next_steps`: `num` sequential generations
(the loop index `i` also varies the temperature), each `.strip()`ed. -/
def totNextSteps (env : ToTEnv) (problem : String) (steps : List String) (num : ℕ) :
    List String :=
  (List.range num).map (fun i => pyStrip (env.stepResponse problem (joinSteps steps) i))

/-- The score extraction of `TreeOfThought._evaluate_step`: default `-100`;
every line that starts with `"Score:"` (unstripped) tries
`float(line.replace("Score:", "").strip())`, keeping the last success. -/
def totParseScore (response : String) : ℚ :=
  (pySplit response "\n").foldl
    (fun score line =>
      if pyStartsWith line "Score:" then
        match parseFloatQ (pyStrip (pyReplace line "Score:" "")) with
        | some v => v
        | none => score
      else score)
    (-100)

/-- `TreeOfThought._evaluate_step` (the unused `constraints` list argument
of the source is dropped; the prompt interpolates `problem`, `plan` and the
formatted constraints). -/
def totEvaluateStep (env : ToTEnv) (problem fc plan : String) : String × ℚ :=
  let response := env.rewardResponse problem plan fc
  (response, totParseScore response)

/-- Processing of one beam node: a complete node is verified, marked, kept,
and bumps the running best; otherwise `branching_factor` scored children are
produced.  Returns (appended beam nodes, best, appended paths). -/
def totExpandNode (cfg : ToTConfig) (env : ToTEnv) (problem fc : String)
    (constraints : List String) (depth : ℕ) (node : ToTNode)
    (best : Option (String × ℚ)) :
    List ToTNode × Option (String × ℚ) × List ToTPath :=
  if totIsComplete env problem node.steps then
    let plan := joinSteps node.steps
    let v := env.verifyPlanOf problem constraints plan
    let best' :=
      match best with
      | none => some (plan, v.2)
      | some b => if b.2 < v.2 then some (plan, v.2) else some b
    ([{ node with complete := true }], best', [⟨node.steps, v.2, v.1, depth, true⟩])
  else
    let children := (totNextSteps env problem node.steps cfg.branching_factor).map
      (fun t =>
        let ns := node.steps ++ [t]
        let e := totEvaluateStep env problem fc (joinSteps ns)
        ({ steps := ns, score := e.2, depth := depth + 1, complete := false,
           feedback := e.1 } : ToTNode))
    (children, best,
     children.map (fun c => ⟨c.steps, c.score, c.feedback, c.depth, false⟩))

/-- The `for node in beam` body of one depth: accumulate `next_beam`, the
running best, and `all_paths`. -/
def totDepthStep (cfg : ToTConfig) (env : ToTEnv) (problem fc : String)
    (constraints : List String) (depth : ℕ) (beam : List ToTNode)
    (best : Option (String × ℚ)) (paths : List ToTPath) :
    List ToTNode × Option (String × ℚ) × List ToTPath :=
  beam.foldl
    (fun acc node =>
      let r := totExpandNode cfg env problem fc constraints depth node acc.2.1
      (acc.1 ++ r.1, r.2.1, acc.2.2 ++ r.2.2))
    ([], best, paths)

/-- `next_beam.sort(key=λx. x["score"], reverse=True); beam = next_beam[:beam_width]`. -/
def totTruncate (bw : ℕ) (l : List ToTNode) : List ToTNode :=
  (pySortDescBy ToTNode.score l).take bw

/-- The `for depth in range(max_depth)` loop.  If the expanded beam holds
complete solutions, the best of them (stable descending sort, first element)
becomes the result and the loop breaks with the beam unchanged; otherwise
the truncated sorted beam is carried to the next depth, stopping early when
it is all-complete (in particular when it is empty). -/
def totLoop (cfg : ToTConfig) (env : ToTEnv) (problem fc : String)
    (constraints : List String) :
    ℕ → ℕ → List ToTNode → Option (String × ℚ) → List ToTPath →
    List ToTNode × Option (String × ℚ) × List ToTPath
  | 0, _, beam, best, paths => (beam, best, paths)
  | fuel+1, depth, beam, best, paths =>
    let r := totDepthStep cfg env problem fc constraints depth beam best paths
    let completes := r.1.filter (fun nd => nd.complete)
    if completes.isEmpty then
      let beam' := totTruncate cfg.beam_width r.1
      if beam'.all (fun nd => nd.complete) then (beam', r.2.1, r.2.2)
      else totLoop cfg env problem fc constraints fuel (depth+1) beam' r.2.1 r.2.2
    else
      match pySortDescBy ToTNode.score completes with
      | [] => (beam, r.2.1, r.2.2)  -- unreachable: the sort of a nonempty list
      | c :: _ => (beam, some (joinSteps c.steps, c.score), r.2.2)

structure ToTResult where
  best : Option (String × ℚ)
  all_paths : List ToTPath
  constraints : List String
  events : List Event
deriving DecidableEq

/-- `TreeOfThought.run`.  The `events` trace is empty because the source
method never calls `notify_observers`. -/
def totRun (cfg : ToTConfig) (env : ToTEnv) (problem : String) : ToTResult :=
  let constraints := env.constraintsOf problem
  let fc := formatDashList constraints
  let r := totLoop cfg env problem fc constraints cfg.max_depth 0
    [⟨[], 0, 0, false, ""⟩] none []
  let final : Option (String × ℚ) :=
    match r.2.1 with
    | some b => some b
    | none =>
      match pyMaxBy ToTNode.score r.1 with
      | some nd => some (joinSteps nd.steps, nd.score)
      | none => none
  ⟨final, r.2.2, constraints, []⟩

/-- Oracle for C9's concrete configuration: never complete, three distinct
next steps scored 10, 30, 20. -/
def totEnvW : ToTEnv :=
  ⟨fun _ => [],
   fun _ _ => "0",
   fun _ _ i => match i with | 0 => "step0" | 1 => "step1" | _ => "step2",
   fun _ plan _ =>
     if plan = "step0" then "Score: 10"
     else if plan = "step1" then "Score: 30" else "Score: 20",
   fun _ _ _ => ("unused", 0)⟩

def totCfgW : ToTConfig := ⟨3, 1, 1⟩

/-- The loop call `totRun totCfgW totEnvW "p"` makes. -/
def totLoopW : List ToTNode × Option (String × ℚ) × List ToTPath :=
  totLoop totCfgW totEnvW "p" (formatDashList (totEnvW.constraintsOf "p"))
    (totEnvW.constraintsOf "p") totCfgW.max_depth 0 [⟨[], 0, 0, false, ""⟩] none []

/-- C9: the beam carried to the next depth is the stable descending-by-score
sort of the expanded nodes truncated to `beam_width`: it has at most
`beam_width` nodes, is sorted descending, is a prefix of a permutation of
the expanded beam dominating everything dropped, and equal scores keep
their original relative order (the sorted `enum` indices witness it).  In
particular with `branching_factor = 3`, `max_depth = 1`, `beam_width = 1`,
exactly 3 children are scored (3 `all_paths` records, no complete ones) and
the surviving beam has at most one node. -/
theorem tot_beam_truncation :
    (∀ (bw : ℕ) (l : List ToTNode),
      (totTruncate bw l).length ≤ bw ∧
      (totTruncate bw l).Pairwise (fun a b => b.score ≤ a.score) ∧
      (∃ rest, pySortDescBy ToTNode.score l = totTruncate bw l ++ rest ∧
        (totTruncate bw l ++ rest).Perm l ∧
        ∀ x ∈ totTruncate bw l, ∀ y ∈ rest, y.score ≤ x.score) ∧
      (∃ en : List (ℕ × ToTNode), en.Perm l.enum ∧
        en.map Prod.snd = pySortDescBy ToTNode.score l ∧
        en.Pairwise (fun p q => q.2.score ≤ p.2.score ∧
          (p.2.score = q.2.score → p.1 ≤ q.1)))) ∧
    (totLoopW.2.2.length = 3 ∧
     (∀ path ∈ totLoopW.2.2, path.complete = false ∧ path.depth = 1) ∧
     totLoopW.1.length ≤ 1 ∧
     (totRun totCfgW totEnvW "p").best = some ("step1", 30)) := by
  constructor
  · intro bw l
    refine ⟨?_, ?_, ?_, ?_⟩
    · exact List.length_take_le bw _
    · exact (pySortDescBy_pairwise ToTNode.score l).sublist (List.take_sublist _ _)
    · refine ⟨(pySortDescBy ToTNode.score l).drop bw, ?_, ?_, ?_⟩
      · exact (List.take_append_drop bw _).symm
      · simp only [totTruncate]
        rw [List.take_append_drop]
        exact pySortDescBy_perm ToTNode.score l
      · have hpw := pySortDescBy_pairwise ToTNode.score l
        rw [← List.take_append_drop bw (pySortDescBy ToTNode.score l)] at hpw
        have := (List.pairwise_append.mp hpw).2.2
        intro x hx y hy
        exact this x hx y hy
    · refine ⟨(l.enum).insertionSort (stableDescRel ToTNode.score), List.perm_insertionSort _ _, rfl, ?_⟩
      have hs : ((l.enum).insertionSort (stableDescRel ToTNode.score)).Pairwise
          (stableDescRel ToTNode.score) := List.sorted_insertionSort _ _
      refine hs.imp ?_
      intro p q hpq
      rcases hpq with h | ⟨h, h'⟩
      · exact ⟨le_of_lt h, fun he => absurd (he ▸ h) (lt_irrefl _)⟩
      · exact ⟨le_of_eq h.symm, fun _ => h'⟩
  · exact ⟨by decide, by decide, by decide, by decide⟩

/-- C9 witness: the truncation theorem applied to a concrete two-node beam
(equal scores): the beam keeps at most one node. -/
theorem tot_beam_truncation_witness :
    (totTruncate 1 [⟨["a"], 5, 1, false, "f"⟩, ⟨["b"], 5, 1, false, "g"⟩]).length ≤ 1 ∧
    totTruncate 1 [⟨["a"], 5, 1, false, "f"⟩, ⟨["b"], 5, 1, false, "g"⟩]
      = [⟨["a"], 5, 1, false, "f"⟩] :=
  ⟨(tot_beam_truncation.1 1 [⟨["a"], 5, 1, false, "f"⟩, ⟨["b"], 5, 1, false, "g"⟩]).1,
   by decide⟩

/-- C4 (against the claim): REBASE and BestOfN runs publish both the
`algorithm_start` and `algorithm_complete` events carrying their algorithm
type name, but a TreeOfThought run publishes **no** events at all — its
`run` method contains no `notify_observers` call — for every environment
and problem. -/
theorem lifecycle_events :
    (∀ (cfg : ToTConfig) (env : ToTEnv) (problem : String),
      (totRun cfg env problem).events = []) ∧
    (∀ (cfg : RebaseConfig) (env : RebaseEnv) (problem : String),
      Event.mk "REBASE" "algorithm_start" ∈ (rebaseRun cfg env problem).events ∧
      Event.mk "REBASE" "algorithm_complete" ∈ (rebaseRun cfg env problem).events) ∧
    (∀ (n : ℕ) (env : BoNEnv) (problem : String) (r : BoNResult),
      bestOfNRun n env problem = Except.ok r →
      Event.mk "BestOfN" "algorithm_start" ∈ r.events ∧
      Event.mk "BestOfN" "algorithm_complete" ∈ r.events) := by
  refine ⟨fun _ _ _ => rfl, ?_, ?_⟩
  · intro cfg env problem
    obtain ⟨suf, hsuf⟩ := rebaseLoop_events_extend cfg env problem
      cfg.max_iterations (rebaseInitIter env problem)
      [rebaseInitIter env problem]
      [⟨"REBASE", "algorithm_start"⟩, ⟨"REBASE", "initial_plan"⟩]
    constructor
    · show Event.mk "REBASE" "algorithm_start" ∈
        (rebaseLoop cfg env problem cfg.max_iterations (rebaseInitIter env problem)
          [rebaseInitIter env problem]
          [⟨"REBASE", "algorithm_start"⟩, ⟨"REBASE", "initial_plan"⟩]).2.2
          ++ [⟨"REBASE", "algorithm_complete"⟩]
      rw [hsuf]
      simp
    · show Event.mk "REBASE" "algorithm_complete" ∈
        (rebaseLoop cfg env problem cfg.max_iterations (rebaseInitIter env problem)
          [rebaseInitIter env problem]
          [⟨"REBASE", "algorithm_start"⟩, ⟨"REBASE", "initial_plan"⟩]).2.2
          ++ [⟨"REBASE", "algorithm_complete"⟩]
      simp
  · intro n env problem r hok
    unfold bestOfNRun at hok
    by_cases hempty : pyStrip problem = ""
    · rw [if_pos hempty] at hok
      cases hok
    · rw [if_neg hempty] at hok
      cases hmax : pyMaxBy (fun i => (bonScores env problem n).getD i 0)
          (List.range (bonScores env problem n).length) with
      | none =>
        rw [hmax] at hok
        cases hok
      | some best_idx =>
        rw [hmax] at hok
        have hr := (Except.ok.injEq _ _).mp hok
        rw [← hr]
        constructor <;> simp

/-- C4 witness: a concrete successful BestOfN run carries both lifecycle
events. -/
theorem lifecycle_events_witness :
    ∃ r : BoNResult, bestOfNRun 2 bonEnvW "solve it" = Except.ok r ∧
      Event.mk "BestOfN" "algorithm_start" ∈ r.events ∧
      Event.mk "BestOfN" "algorithm_complete" ∈ r.events := by
  cases hcase : bestOfNRun 2 bonEnvW "solve it" with
  | error e =>
    have hok : (bestOfNRun 2 bonEnvW "solve it").isOk = true := by decide
    rw [hcase] at hok
    simp [Except.isOk, Except.toBool] at hok
  | ok r =>
    exact ⟨r, rfl, lifecycle_events.2.2 2 bonEnvW "solve it" r hcase⟩

end PlanGen

